import Mathlib

/-!
Verification development for the multivariate Student's-T distribution of
`stat/distmv/studentst.go` (gonum).

The embedding is shallow:
* finite `float64` values are modelled as exact reals (rounding is not
  modelled), and the IEEE special values `+Inf`, `-Inf`, `NaN` that the code
  manipulates (the Gaussian-limit marker `nu = math.Inf(1)`, results of
  `math.Lgamma`, `math.Log`, `math.Sqrt`, and arithmetic on them) are modelled
  by the scalar type `FReal`;
* vectors and matrices are total functions `ℕ → ℝ` and `ℕ → ℕ → ℝ` together
  with an explicit dimension, mirroring Go slices/`SymDense` storage; entries
  beyond the dimension are zero-padded when a value is stored in a structure;
* a Go function that can panic and also report `ok = false` is modelled with
  the `Outcome` type: `panic` (fatal configuration error), `fail`
  (recoverable numerical failure, the `nil, false` return), `ok`;
* the external factorization engine (`mat.Cholesky`) is modelled from the
  spec: factorization succeeds exactly on positive-definite input, solving
  against the factor is exact (`Σ⁻¹ · b`), the extracted lower-triangular
  factor `L` satisfies `L·Lᵀ = Σ`, and `LogDet` is `log (det Σ)`.
-/

open scoped Classical

noncomputable section

namespace Distmv

open Matrix

/-- IEEE-style scalar: an exact real (a finite `float64`, rounding ignored)
or one of the special values `+Inf`, `-Inf`, `NaN`. -/
inductive FReal where
  | nan : FReal
  | posInf : FReal
  | negInf : FReal
  | fin : ℝ → FReal

namespace FReal

/-- Negation, `-x` on `float64`. -/
def neg : FReal → FReal
  | nan => nan
  | posInf => negInf
  | negInf => posInf
  | fin x => fin (-x)

/-- IEEE addition: `NaN` propagates and `(+Inf) + (-Inf) = NaN`. -/
def add : FReal → FReal → FReal
  | nan, _ => nan
  | _, nan => nan
  | posInf, negInf => nan
  | negInf, posInf => nan
  | posInf, _ => posInf
  | negInf, _ => negInf
  | fin _, posInf => posInf
  | fin _, negInf => negInf
  | fin x, fin y => fin (x + y)

/-- IEEE multiplication: `NaN` propagates and `0 * (±Inf) = NaN`. -/
def mul : FReal → FReal → FReal
  | nan, _ => nan
  | _, nan => nan
  | posInf, posInf => posInf
  | posInf, negInf => negInf
  | negInf, posInf => negInf
  | negInf, negInf => posInf
  | posInf, fin y => if 0 < y then posInf else if y < 0 then negInf else nan
  | negInf, fin y => if 0 < y then negInf else if y < 0 then posInf else nan
  | fin x, posInf => if 0 < x then posInf else if x < 0 then negInf else nan
  | fin x, negInf => if 0 < x then negInf else if x < 0 then posInf else nan
  | fin x, fin y => fin (x * y)

/-- IEEE division.  `(±Inf)/(±Inf) = NaN`, `x/(±Inf) = 0`, division of a
nonzero finite value by zero gives a signed infinity and `0/0 = NaN`.
(The sign of a floating-point zero is not modelled; zero is `+0`.) -/
def div : FReal → FReal → FReal
  | nan, _ => nan
  | _, nan => nan
  | posInf, posInf => nan
  | posInf, negInf => nan
  | negInf, posInf => nan
  | negInf, negInf => nan
  | posInf, fin y => if 0 ≤ y then posInf else negInf
  | negInf, fin y => if 0 ≤ y then negInf else posInf
  | fin _, posInf => fin 0
  | fin _, negInf => fin 0
  | fin x, fin y =>
      if y = 0 then (if x = 0 then nan else if 0 < x then posInf else negInf)
      else fin (x / y)

instance : Neg FReal := ⟨neg⟩
instance : Add FReal := ⟨add⟩
instance : Mul FReal := ⟨mul⟩
instance : Div FReal := ⟨div⟩

/-- IEEE subtraction, `a - b = a + (-b)`. -/
def sub (a b : FReal) : FReal := a + (-b)

instance : Sub FReal := ⟨sub⟩

/-- `math.Sqrt`: `Sqrt(+Inf) = +Inf`, `Sqrt(x) = NaN` for `x < 0`. -/
def sqrt : FReal → FReal
  | nan => nan
  | posInf => posInf
  | negInf => nan
  | fin x => if x < 0 then nan else fin (Real.sqrt x)

/-- `math.Log`: `Log(+Inf) = +Inf`, `Log(0) = -Inf`, `Log(x) = NaN` for
`x < 0`. -/
def log : FReal → FReal
  | nan => nan
  | posInf => posInf
  | negInf => nan
  | fin x => if 0 < x then fin (Real.log x) else if x = 0 then negInf else nan

/-- `math.Exp`: `Exp(+Inf) = +Inf`, `Exp(-Inf) = 0`. -/
def exp : FReal → FReal
  | nan => nan
  | posInf => posInf
  | negInf => fin 0
  | fin x => fin (Real.exp x)

/-- The finite value of `math.Lgamma x` for `x` not a nonpositive integer:
`log |Γ(x)|`. -/
def lgammaR (x : ℝ) : ℝ := Real.log |Real.Gamma x|

/-- `math.Lgamma` (first return value): `Lgamma(+Inf) = +Inf`,
`Lgamma(-Inf) = -Inf`, `Lgamma` of zero or of a negative integer is `+Inf`,
otherwise `log |Γ(x)|`. -/
def lgamma : FReal → FReal
  | nan => nan
  | posInf => posInf
  | negInf => negInf
  | fin x => if ∃ m : ℕ, x = -(m : ℝ) then posInf else fin (lgammaR x)

/-- The real carried by a finite value (`0` for the special values); used to
embed a `float64` scalar into real matrix arithmetic on code paths where the
scalar is finite. -/
def toReal : FReal → ℝ
  | fin x => x
  | _ => 0

@[simp] theorem fin_add_fin (x y : ℝ) : fin x + fin y = fin (x + y) := rfl

@[simp] theorem posInf_add_fin (y : ℝ) : posInf + fin y = posInf := rfl

@[simp] theorem fin_add_posInf (x : ℝ) : fin x + posInf = posInf := rfl

@[simp] theorem posInf_add_posInf : posInf + posInf = posInf := rfl

@[simp] theorem nan_add (a : FReal) : nan + a = nan := by cases a <;> rfl

@[simp] theorem add_nan (a : FReal) : a + nan = nan := by cases a <;> rfl

@[simp] theorem fin_sub_fin (x y : ℝ) : fin x - fin y = fin (x - y) := by
  show fin (x + -y) = fin (x - y)
  rw [← sub_eq_add_neg]

@[simp] theorem posInf_sub_posInf : posInf - posInf = nan := rfl

@[simp] theorem posInf_sub_fin (y : ℝ) : posInf - fin y = posInf := rfl

@[simp] theorem nan_sub (a : FReal) : nan - a = nan := by cases a <;> rfl

@[simp] theorem sub_nan (a : FReal) : a - nan = nan := by cases a <;> rfl

@[simp] theorem fin_mul_fin (x y : ℝ) : fin x * fin y = fin (x * y) := rfl

@[simp] theorem nan_mul (a : FReal) : nan * a = nan := by cases a <;> rfl

@[simp] theorem mul_nan (a : FReal) : a * nan = nan := by cases a <;> rfl

theorem posInf_mul_fin_pos {y : ℝ} (hy : 0 < y) : posInf * fin y = posInf := by
  show mul posInf (fin y) = posInf
  simp [mul, hy]

theorem posInf_mul_fin_zero : posInf * fin 0 = nan := by
  show mul posInf (fin 0) = nan
  simp [mul]

theorem fin_mul_posInf_pos {x : ℝ} (hx : 0 < x) : fin x * posInf = posInf := by
  show mul (fin x) posInf = posInf
  simp [mul, hx]

@[simp] theorem fin_div_posInf (x : ℝ) : fin x / posInf = fin 0 := rfl

@[simp] theorem posInf_div_posInf : posInf / posInf = nan := rfl

theorem posInf_div_fin_nonneg {y : ℝ} (hy : 0 ≤ y) : posInf / fin y = posInf := by
  show div posInf (fin y) = posInf
  simp [div, hy]

theorem fin_div_fin {x y : ℝ} (hy : y ≠ 0) : fin x / fin y = fin (x / y) := by
  show div (fin x) (fin y) = fin (x / y)
  simp [div, hy]

@[simp] theorem sqrt_posInf : sqrt posInf = posInf := rfl

theorem sqrt_fin_nonneg {x : ℝ} (hx : 0 ≤ x) : sqrt (fin x) = fin (Real.sqrt x) := by
  simp [sqrt, not_lt.mpr hx]

theorem log_fin_pos {x : ℝ} (hx : 0 < x) : log (fin x) = fin (Real.log x) := by
  simp [log, hx]

@[simp] theorem log_posInf : log posInf = posInf := rfl

@[simp] theorem lgamma_posInf : lgamma posInf = posInf := rfl

theorem lgamma_fin_pos {x : ℝ} (hx : 0 < x) : lgamma (fin x) = fin (lgammaR x) := by
  have : ¬ ∃ m : ℕ, x = -(m : ℝ) := by
    rintro ⟨m, rfl⟩
    have : (0 : ℝ) ≤ m := Nat.cast_nonneg m
    linarith
  simp [lgamma, this]

@[simp] theorem exp_nan : exp nan = nan := rfl

@[simp] theorem toReal_fin (x : ℝ) : toReal (fin x) = x := rfl

@[simp] theorem fin_injEq (x y : ℝ) : fin x = fin y ↔ x = y :=
  ⟨fun h => by injection h, fun h => by rw [h]⟩

theorem fin_ne_nan (x : ℝ) : fin x ≠ nan := by intro h; injection h

theorem fin_ne_posInf (x : ℝ) : fin x ≠ posInf := by intro h; injection h

end FReal

/-- Outcome of a Go call in this package: a `panic` (fatal configuration
error), a recoverable failure (`return nil, false`), or success. -/
inductive Outcome (α : Type) where
  | panic : String → Outcome α
  | fail : Outcome α
  | ok : α → Outcome α

namespace Outcome

/-- Whether the call panicked. -/
def isPanic : Outcome α → Prop
  | panic _ => True
  | _ => False

/-- The successful value, if any. -/
def toOption : Outcome α → Option α
  | ok a => some a
  | _ => none

/-- The successful value, or a default. -/
def getD : Outcome α → α → α
  | ok a, _ => a
  | _, d => d

/-- A tag identifying which of the three outcome shapes occurred. -/
def tag : Outcome α → ℕ
  | panic _ => 0
  | fail => 1
  | ok _ => 2

@[simp] theorem isPanic_panic (m : String) : (panic (α := α) m).isPanic := trivial

@[simp] theorem not_isPanic_fail : ¬ (fail (α := α)).isPanic := id

@[simp] theorem not_isPanic_ok (a : α) : ¬ (ok a).isPanic := id

@[simp] theorem getD_ok (a d : α) : (ok a).getD d = a := rfl

@[simp] theorem toOption_ok (a : α) : (ok a).toOption = some a := rfl

@[simp] theorem ok_injEq (a b : α) : ok a = ok b ↔ a = b :=
  ⟨fun h => by injection h, fun h => by rw [h]⟩

theorem ok_ne_fail (a : α) : ok a ≠ fail (α := α) := by intro h; injection h

theorem ok_ne_panic (a : α) (m : String) : ok a ≠ panic m := by intro h; injection h

end Outcome

/-- A vector: a Go `[]float64`, with the length kept separately. -/
def Vec : Type := ℕ → ℝ

/-- A matrix: a Go `mat.SymDense`/`mat.Dense` storage, with the dimension
kept separately. -/
def Mtx : Type := ℕ → ℕ → ℝ

/-- The `n × n` leading block of an untyped matrix, as a Mathlib matrix. -/
def toMat (n : ℕ) (A : Mtx) : Matrix (Fin n) (Fin n) ℝ :=
  Matrix.of fun i j : Fin n => A i j

@[simp] theorem toMat_apply (n : ℕ) (A : Mtx) (i j : Fin n) :
    toMat n A i j = A i j := rfl

/-- Sub-matrix extraction by index lists (`SubsetSym` and the explicit
`sigma21` loop): entry `(i, j)` is the source entry at
`(rows[i], cols[j])`. -/
def subMtx (A : Mtx) (rows cols : List ℕ) : Mtx :=
  fun i j => A (rows.getD i 0) (cols.getD j 0)

/-- Modelled from the spec: the factorization engine's `SolveVecTo` — solving
`A · x = b` against the Cholesky factor of `A` is exact, so `x = A⁻¹ · b`
(entries past the dimension are zero). -/
def solveVec (n : ℕ) (A : Mtx) (b : Vec) : Vec :=
  fun i => if h : i < n then ((toMat n A)⁻¹ *ᵥ fun j : Fin n => b j) ⟨i, h⟩ else 0

/-- Modelled from the spec: the factorization engine's `SolveTo` — the matrix
solve `A · X = B`, columnwise `X = A⁻¹ · B`. -/
def solveMat (n : ℕ) (A : Mtx) (B : Mtx) : Mtx :=
  fun i j => if h : i < n then ((toMat n A)⁻¹ *ᵥ fun l : Fin n => B l j) ⟨i, h⟩ else 0

/-- Modelled from the spec: the lower-triangular factor the engine extracts
(`Cholesky.LTo`), as an abstract matrix square root: any `L` with
`L·Lᵀ = A` serves the claims, and the positive-semidefinite square root is
such an `L` (it is symmetric rather than triangular; no claim relies on
triangularity).  On non-positive-definite input (never reached on live
distributions) the value is junk. -/
def cholMat {n : ℕ} (M : Matrix (Fin n) (Fin n) ℝ) : Matrix (Fin n) (Fin n) ℝ :=
  if h : M.PosDef then h.posSemidef.sqrt else 0

/-- The stored factor: the engine's factor of the `n × n` leading block,
zero-padded. -/
def cholL (n : ℕ) (A : Mtx) : Mtx :=
  fun i j => if h : i < n ∧ j < n then cholMat (toMat n A) ⟨i, h.1⟩ ⟨j, h.2⟩ else 0

theorem cholMat_mul_transpose {n : ℕ} {M : Matrix (Fin n) (Fin n) ℝ}
    (h : M.PosDef) : cholMat M * (cholMat M)ᵀ = M := by
  have hsd := h.posSemidef
  have hherm : hsd.sqrt.IsHermitian := hsd.posSemidef_sqrt.1
  have ht : (hsd.sqrt)ᵀ = hsd.sqrt := by
    have := hherm
    rwa [Matrix.IsHermitian, Matrix.conjTranspose_eq_transpose_of_trivial] at this
  rw [cholMat, dif_pos h, ht]
  exact hsd.sqrt_mul_self

theorem cholL_congr {n : ℕ} {A B : Mtx} (h : toMat n A = toMat n B) :
    cholL n A = cholL n B := by
  funext i j
  unfold cholL
  rw [h]

/-- The `StudentsT` struct of `studentst.go`: degrees of freedom `nu`
(a `float64`, possibly `+Inf`), location `mu`, scale `sigma`, the cached
lower factor and `logSqrtDet`, and the dimension.  The random source fields
are not part of the value model. -/
structure StudentsT where
  nu : FReal
  mu : Vec
  sigma : Mtx
  lower : Mtx
  logSqrtDet : ℝ
  dim : ℕ

instance : Inhabited StudentsT :=
  ⟨{ nu := .nan, mu := fun _ => 0, sigma := fun _ _ => 0,
     lower := fun _ _ => 0, logSqrtDet := 0, dim := 0 }⟩

/-- `NewStudentsT(mu, sigma, nu, src)`: panics for a zero-dimensional `mu` or
a `mu`/`sigma` size mismatch; factorizes `sigma` and returns `nil, false`
when it is not positive-definite; otherwise copies `mu` and `sigma` into new
storage and caches the factor and `logSqrtDet = 0.5 * chol.LogDet()`.
`d` is `sigma.SymmetricDim()`. -/
def NewStudentsT (mu : List ℝ) (d : ℕ) (sigma : Mtx) (nu : FReal) :
    Outcome StudentsT :=
  if mu.length = 0 then .panic "dist: zero dimensional input"
  else if d ≠ mu.length then .panic "dist: size mismatch"
  else if (toMat d sigma).PosDef then
    .ok { nu := nu
          mu := fun i => if i < d then mu.getD i 0 else 0
          sigma := fun i j => if i < d ∧ j < d then sigma i j else 0
          lower := cholL d sigma
          logSqrtDet := 0.5 * Real.log (toMat d sigma).det
          dim := d }
  else .fail

/-- The record a successful `NewStudentsT` call builds. -/
def builtDist (mu : List ℝ) (d : ℕ) (sigma : Mtx) (nu : FReal) : StudentsT :=
  { nu := nu
    mu := fun i => if i < d then mu.getD i 0 else 0
    sigma := fun i j => if i < d ∧ j < d then sigma i j else 0
    lower := cholL d sigma
    logSqrtDet := 0.5 * Real.log (toMat d sigma).det
    dim := d }

theorem newStudentsT_ok {mu : List ℝ} {d : ℕ} {sigma : Mtx} {nu : FReal}
    (h0 : mu.length ≠ 0) (hd : d = mu.length) (hpd : (toMat d sigma).PosDef) :
    NewStudentsT mu d sigma nu = .ok (builtDist mu d sigma nu) := by
  rw [NewStudentsT, if_neg h0, if_neg (by simp [hd]), if_pos hpd]
  rfl

theorem newStudentsT_ok_inv {mu : List ℝ} {d : ℕ} {sigma : Mtx} {nu : FReal}
    {s : StudentsT} (h : NewStudentsT mu d sigma nu = .ok s) :
    mu.length ≠ 0 ∧ d = mu.length ∧ (toMat d sigma).PosDef ∧
      s = builtDist mu d sigma nu := by
  by_cases h0 : mu.length = 0
  · rw [NewStudentsT, if_pos h0] at h
    exact absurd h.symm (Outcome.ok_ne_panic _ _)
  by_cases hd : d = mu.length
  · by_cases hpd : (toMat d sigma).PosDef
    · refine ⟨h0, hd, hpd, ?_⟩
      rw [newStudentsT_ok h0 hd hpd] at h
      exact ((Outcome.ok_injEq _ _).mp h).symm
    · rw [NewStudentsT, if_neg h0, if_neg (by simp [hd]), if_neg hpd] at h
      exact absurd h.symm (Outcome.ok_ne_fail _)
  · rw [NewStudentsT, if_neg h0, if_pos (by simpa using hd)] at h
    exact absurd h.symm (Outcome.ok_ne_panic _ _)

/-- The location slice the receiver passes to `studentsTConditional`
(`s.mu`, of length `s.dim`). -/
def muList (s : StudentsT) : List ℝ := (List.range s.dim).map s.mu

/-- `findUnob`: the unobserved variables, the ascending complement of
`observed` in `[0, dim)` (`intsets` difference followed by `sort.Ints`). -/
def findUnob (observed : List ℕ) (dim : ℕ) : List ℕ :=
  (List.range dim).filter fun i => i ∉ observed

/-- Local `unobserved` of `studentsTConditional` (`dim` is `len(mu)`). -/
def condUnob (observed : List ℕ) (mu : List ℝ) : List ℕ :=
  findUnob observed mu.length

/-- Local `mu1` of `studentsTConditional`: `mu[unobserved]`. -/
def condMu1 (observed : List ℕ) (mu : List ℝ) : Vec :=
  fun i => mu.getD ((condUnob observed mu).getD i 0) 0

/-- Local `mu2` of `studentsTConditional` (really `values - mu₂`). -/
def condMu2 (observed : List ℕ) (values mu : List ℝ) : Vec :=
  fun i => values.getD i 0 - mu.getD (observed.getD i 0) 0

/-- Local `sigma11` of `studentsTConditional`. -/
def condSigma11 (observed : List ℕ) (mu : List ℝ) (sigma : Mtx) : Mtx :=
  subMtx sigma (condUnob observed mu) (condUnob observed mu)

/-- Local `sigma22` of `studentsTConditional`. -/
def condSigma22 (observed : List ℕ) (sigma : Mtx) : Mtx :=
  subMtx sigma observed observed

/-- Local `sigma21` of `studentsTConditional` (`ob × unob`). -/
def condSigma21 (observed : List ℕ) (mu : List ℝ) (sigma : Mtx) : Mtx :=
  subMtx sigma observed (condUnob observed mu)

/-- Local `tmp` of `studentsTConditional`: the solve
`sigma22 · tmp = values - mu₂`. -/
def condTmp (observed : List ℕ) (values mu : List ℝ) (sigma : Mtx) : Vec :=
  solveVec observed.length (condSigma22 observed sigma) (condMu2 observed values mu)

/-- Local `tmp2` of `studentsTConditional`: `sigma21ᵀ · tmp`. -/
def condTmp2 (observed : List ℕ) (values mu : List ℝ) (sigma : Mtx) : Vec :=
  fun i => ∑ j ∈ Finset.range observed.length,
    condSigma21 observed mu sigma j i * condTmp observed values mu sigma j

/-- The updated mean of `studentsTConditional`: the in-place
`mu1[i] += tmp2[i]` loop. -/
def condNewMu (observed : List ℕ) (values mu : List ℝ) (sigma : Mtx) : List ℝ :=
  (List.range (condUnob observed mu).length).map fun i =>
    condMu1 observed mu i + condTmp2 observed values mu sigma i

/-- Local `tmp3` of `studentsTConditional`: the matrix solve
`sigma22 · tmp3 = sigma21`. -/
def condTmp3 (observed : List ℕ) (mu : List ℝ) (sigma : Mtx) : Mtx :=
  solveMat observed.length (condSigma22 observed sigma) (condSigma21 observed mu sigma)

/-- Local `tmp4` of `studentsTConditional`: `sigma21ᵀ · tmp3`. -/
def condTmp4 (observed : List ℕ) (mu : List ℝ) (sigma : Mtx) : Mtx :=
  fun i j => ∑ l ∈ Finset.range observed.length,
    condSigma21 observed mu sigma l i * condTmp3 observed mu sigma l j

/-- `sigma11` after the subtraction loop `SetSym(i, j, sigma11 - tmp4)`:
computed on the upper triangle `i ≤ j` and mirrored. -/
def condSigma11u (observed : List ℕ) (mu : List ℝ) (sigma : Mtx) : Mtx :=
  fun i j =>
    if i ≤ j then condSigma11 observed mu sigma i j - condTmp4 observed mu sigma i j
    else condSigma11 observed mu sigma j i - condTmp4 observed mu sigma j i

/-- Local `beta` of `studentsTConditional`:
`(values - mu₂)ᵀ · sigma22⁻¹ · (values - mu₂)` (`Dot(v, tmp)`). -/
def condBeta (observed : List ℕ) (values mu : List ℝ) (sigma : Mtx) : ℝ :=
  ∑ i ∈ Finset.range observed.length,
    condMu2 observed values mu i * condTmp observed values mu sigma i

/-- `studentsTConditional`: block-partitions `mu` and `sigma` by the
observed/unobserved index sets, factorizes `sigma22` (failure is the
`NaN, nil, nil` return, modelled as `.fail`), and computes the conditional
mean (`mu1 + sigma21ᵀ · sigma22⁻¹ · (values - mu2)`), the Schur complement
(written on the upper triangle and mirrored, as the `SetSym` loop does),
and — on the finite-`nu` branch — the quadratic form `beta` and the
`(nu + beta)/(nu + ob)` rescaling, returning `nu + ob` degrees of freedom.
The Gaussian-limit branch `nu == math.Inf(1)` returns the unscaled Schur
complement and `nu` unchanged.  The locals are the `cond*` definitions
above. -/
def studentsTConditional (observed : List ℕ) (values : List ℝ) (nu : FReal)
    (mu : List ℝ) (sigma : Mtx) : Outcome (FReal × List ℝ × Mtx) :=
  if (condUnob observed mu).length = 0 then .panic "stat: all dimensions observed"
  else if (toMat observed.length (condSigma22 observed sigma)).PosDef then
    match nu with
    | .posInf => .ok (.posInf, condNewMu observed values mu sigma,
        condSigma11u observed mu sigma)
    | nuv =>
        -- Below the `IsInf` check the code uses `nu` as a finite float;
        -- live distributions carry a finite or `+Inf` `nu`.
        let x := nuv.toReal
        .ok (.fin (x + observed.length), condNewMu observed values mu sigma,
          fun i j => (x + condBeta observed values mu sigma) /
            (x + observed.length) * condSigma11u observed mu sigma i j)
  else .fail

/-- `ConditionStudentsT`: validates the evidence (panicking on empty
`observed`, a length mismatch, or an out-of-range index — indices are
modelled as naturals, so the Go `v < 0` check has no counterpart), runs
`studentsTConditional`, propagates its failure, and builds the result with
`NewStudentsT`. -/
def ConditionStudentsT (s : StudentsT) (observed : List ℕ) (values : List ℝ) :
    Outcome StudentsT :=
  if observed.length = 0 then .panic "studentst: no observed value"
  else if observed.length ≠ values.length then .panic "dist: slice length mismatch"
  else if observed.any fun v => s.dim ≤ v then
    .panic "studentst: observed value out of bounds"
  else
    match studentsTConditional observed values s.nu (muList s) s.sigma with
    | .panic m => .panic m
    | .fail => .fail
    | .ok (newNu, newMean, newSigma) =>
        NewStudentsT newMean newMean.length newSigma newNu

/-- `CovarianceMatrix` entries: `Sigma` copied and scaled by
`nu / (nu - 2)` (a `float64` quotient, so a special value when `nu` is the
Gaussian-limit marker). -/
def covEntries (s : StudentsT) : ℕ → ℕ → FReal :=
  fun i j => s.nu / (s.nu - .fin 2) * .fin (s.sigma i j)

/-- `CovarianceMatrix(dst)`: an empty `dst` (`none`) is grown to the
dimension; a supplied `dst` of mismatched dimension is a panic. -/
def CovarianceMatrix (s : StudentsT) (dstDim : Option ℕ) :
    Outcome (ℕ → ℕ → FReal) :=
  match dstDim with
  | none => .ok (covEntries s)
  | some m =>
      if m ≠ s.dim then .panic "studentst: input matrix size mismatch"
      else .ok (covEntries s)

/-- `Dim`. -/
def Dim (s : StudentsT) : ℕ := s.dim

/-- `stat.Mahalanobis(x, y, chol)`: `sqrt((x-y)ᵀ · Sigma⁻¹ · (x-y))`, the
solve done against the cached factor. -/
def mahalanobis (n : ℕ) (x y : Vec) (A : Mtx) : ℝ :=
  Real.sqrt (∑ i ∈ Finset.range n, (x i - y i) * solveVec n A (fun j => x j - y j) i)

/-- `LogProb(y)`: the log-density
`lgamma((nu+n)/2) - lgamma(nu/2) - n/2*log(nu*pi) - logSqrtDet
 - ((nu+n)/2)*log(1 + mahal²/nu)`, computed in `float64` arithmetic (the
`FReal` operations), with the squared Mahalanobis distance computed over the
cached factor.  The point `y` is modelled at the receiver's dimension. -/
def LogProb (s : StudentsT) (y : Vec) : FReal :=
  let nu := s.nu
  let n : ℝ := s.dim
  let lg1 := FReal.lgamma ((nu + .fin n) / .fin 2)
  let lg2 := FReal.lgamma (nu / .fin 2)
  let t1 := lg1 - lg2 - .fin (n / 2) * FReal.log (nu * .fin Real.pi)
    - .fin s.logSqrtDet
  let mahal := mahalanobis s.dim y s.mu s.sigma
  t1 - (nu + .fin n) / .fin 2 * FReal.log (.fin 1 + .fin (mahal * mahal) / nu)

/-- `Prob(y) = exp(LogProb(y))`. -/
def Prob (s : StudentsT) (y : Vec) : FReal := FReal.exp (LogProb s y)

/-- `MarginalStudentsT(vars, src)`: extracts `mu[vars]` and
`sigma[vars, vars]` and rebuilds through `NewStudentsT` with `nu`
unchanged. -/
def MarginalStudentsT (s : StudentsT) (vars : List ℕ) : Outcome StudentsT :=
  let newMean : List ℝ := vars.map fun v => s.mu v
  let newSigma : Mtx := subMtx s.sigma vars vars
  NewStudentsT newMean vars.length newSigma s.nu

/-- `Mean(dst)`: a copy of `mu`. -/
def Mean (s : StudentsT) : Vec := fun i => if i < s.dim then s.mu i else 0

/-- The intermediate `y = lower · z` of `Rand` (`y.MulVec(&s.lower, y)`),
with `z` the vector of standard-normal draws. -/
def lowerMulVec (s : StudentsT) (z : Vec) : Vec :=
  fun i => ∑ j ∈ Finset.range s.dim, s.lower i j * z j

/-- `Rand(dst)`: draws `z` (standard normals), forms `y = lower · z`,
*unconditionally* draws one chi-squared variate `u` with `nu` degrees of
freedom, and returns `mu + sqrt(nu/u) · y` in `float64` arithmetic.  The
random draws `z` and `u` are explicit arguments of the model. -/
def Rand (s : StudentsT) (z : Vec) (u : ℝ) : ℕ → FReal :=
  let y := lowerMulVec s z
  fun i => .fin (s.mu i) + FReal.sqrt (s.nu / .fin u) * .fin (y i)

/-! ### Helper lemmas -/

/-- The identity scale matrix of the spec's concrete scenarios. -/
def idf : Mtx := fun i j => if i = j then 1 else 0

theorem toMat_idf (n : ℕ) : toMat n idf = 1 := by
  ext i j
  by_cases h : i = j
  · simp [toMat, idf, Matrix.one_apply, h]
  · have h' : (i : ℕ) ≠ (j : ℕ) := fun hc => h (Fin.ext hc)
    simp [toMat, idf, Matrix.one_apply, h, h']

theorem posDef_toMat_idf (n : ℕ) : (toMat n idf).PosDef := by
  rw [toMat_idf]
  exact Matrix.PosDef.one

theorem getD_range {i n : ℕ} (h : i < n) : (List.range n).getD i 0 = i := by
  simp [List.getD_eq_getElem?_getD, List.getElem?_range h]

theorem getD_map {l : List ℕ} {f : ℕ → ℝ} {i : ℕ}
    (h : i < l.length) : (l.map f).getD i 0 = f (l.getD i 0) := by
  simp [List.getD_eq_getElem?_getD, List.getElem?_map, List.getElem?_eq_getElem h]

theorem getD_mem {l : List ℕ} {i : ℕ} (h : i < l.length) : l.getD i 0 ∈ l := by
  rw [List.getD_eq_getElem?_getD, List.getElem?_eq_getElem h]
  exact List.getElem_mem _

theorem mem_findUnob {v : ℕ} {observed : List ℕ} {dim : ℕ} :
    v ∈ findUnob observed dim ↔ v < dim ∧ v ∉ observed := by
  simp [findUnob, List.mem_filter, List.mem_range]

@[simp] theorem builtDist_nu (mu : List ℝ) (d : ℕ) (sigma : Mtx) (nu : FReal) :
    (builtDist mu d sigma nu).nu = nu := rfl

@[simp] theorem builtDist_dim (mu : List ℝ) (d : ℕ) (sigma : Mtx) (nu : FReal) :
    (builtDist mu d sigma nu).dim = d := rfl

theorem builtDist_mu_lt {mu : List ℝ} {d : ℕ} (sigma : Mtx) (nu : FReal)
    {i : ℕ} (h : i < d) : (builtDist mu d sigma nu).mu i = mu.getD i 0 := by
  simp [builtDist, h]

theorem builtDist_sigma_lt {mu : List ℝ} {d : ℕ} (sigma : Mtx) (nu : FReal)
    {i j : ℕ} (hi : i < d) (hj : j < d) :
    (builtDist mu d sigma nu).sigma i j = sigma i j := by
  simp [builtDist, hi, hj]

theorem toMat_builtDist_sigma (mu : List ℝ) (d : ℕ) (sigma : Mtx) (nu : FReal) :
    toMat d (builtDist mu d sigma nu).sigma = toMat d sigma := by
  ext i j
  simp [toMat, builtDist, i.isLt, j.isLt]

theorem toMat_cholL (d : ℕ) (sigma : Mtx) :
    toMat d (cholL d sigma) = cholMat (toMat d sigma) := by
  ext i j
  simp only [toMat_apply, cholL]
  rw [dif_pos ⟨i.isLt, j.isLt⟩]

theorem posDef_symm_entries {d : ℕ} {A : Mtx} (h : (toMat d A).PosDef)
    {i j : ℕ} (hi : i < d) (hj : j < d) : A i j = A j i := by
  have hh := h.isHermitian
  rw [Matrix.IsHermitian, Matrix.conjTranspose_eq_transpose_of_trivial] at hh
  have := congrFun (congrFun hh ⟨i, hi⟩) ⟨j, hj⟩
  simpa [toMat, Matrix.transpose_apply] using this.symm

theorem builtDist_sigma_symm {mu : List ℝ} {d : ℕ} {sigma : Mtx} (nu : FReal)
    (hpd : (toMat d sigma).PosDef) (i j : ℕ) :
    (builtDist mu d sigma nu).sigma i j = (builtDist mu d sigma nu).sigma j i := by
  by_cases hi : i < d
  · by_cases hj : j < d
    · rw [builtDist_sigma_lt sigma nu hi hj, builtDist_sigma_lt sigma nu hj hi]
      exact posDef_symm_entries hpd hi hj
    · simp [builtDist, hj]
  · simp [builtDist, hi]

theorem posDef_diag_pos {n : ℕ} {M : Matrix (Fin n) (Fin n) ℝ}
    (h : M.PosDef) (i : Fin n) : 0 < M i i := by
  have hz : (Pi.single i 1 : Fin n → ℝ) ≠ 0 := by
    intro hc
    have := congrFun hc i
    simp at this
  have := h.2 (Pi.single i 1) hz
  simpa [Matrix.mulVec_single, Matrix.single_dotProduct] using this

@[simp] theorem builtDist_lower (mu : List ℝ) (d : ℕ) (sigma : Mtx) (nu : FReal) :
    (builtDist mu d sigma nu).lower = cholL d sigma := rfl

@[simp] theorem builtDist_logSqrtDet (mu : List ℝ) (d : ℕ) (sigma : Mtx) (nu : FReal) :
    (builtDist mu d sigma nu).logSqrtDet = 0.5 * Real.log (toMat d sigma).det := rfl

theorem built_nu {mu : List ℝ} {d : ℕ} {sigma : Mtx} {nu : FReal}
    {s : StudentsT} (hs : NewStudentsT mu d sigma nu = .ok s) : s.nu = nu := by
  rw [(newStudentsT_ok_inv hs).2.2.2, builtDist_nu]

theorem builtDist_eq_of {mu1 mu2 : List ℝ} {d : ℕ} {s1 s2 : Mtx} {nu : FReal}
    (hmu : ∀ i, i < d → mu1.getD i 0 = mu2.getD i 0)
    (hsig : ∀ i j, i < d → j < d → s1 i j = s2 i j) :
    builtDist mu1 d s1 nu = builtDist mu2 d s2 nu := by
  have ht : toMat d s1 = toMat d s2 := by
    ext i j
    exact hsig i j i.isLt j.isLt
  have hm : (fun i => if i < d then mu1.getD i 0 else 0) =
      (fun i => if i < d then mu2.getD i 0 else 0) := by
    funext i
    by_cases hi : i < d
    · rw [if_pos hi, if_pos hi]
      exact hmu i hi
    · rw [if_neg hi, if_neg hi]
  have hsg : (fun i j => if i < d ∧ j < d then s1 i j else 0) =
      (fun i j => if i < d ∧ j < d then s2 i j else 0) := by
    funext i j
    by_cases hij : i < d ∧ j < d
    · rw [if_pos hij, if_pos hij]
      exact hsig i j hij.1 hij.2
    · rw [if_neg hij, if_neg hij]
  have hch : cholL d s1 = cholL d s2 := cholL_congr ht
  unfold builtDist
  rw [hm, hsg, hch, ht]

theorem built_sigma_posDef {mu : List ℝ} {d : ℕ} {sigma : Mtx} {nu : FReal}
    {s : StudentsT} (hs : NewStudentsT mu d sigma nu = .ok s) :
    (toMat s.dim s.sigma).PosDef := by
  obtain ⟨h0, hd, hpd, rfl⟩ := newStudentsT_ok_inv hs
  rw [builtDist_dim, toMat_builtDist_sigma]
  exact hpd

theorem built_sigma_symm {mu : List ℝ} {d : ℕ} {sigma : Mtx} {nu : FReal}
    {s : StudentsT} (hs : NewStudentsT mu d sigma nu = .ok s) :
    ∀ i j, s.sigma i j = s.sigma j i := by
  obtain ⟨h0, hd, hpd, rfl⟩ := newStudentsT_ok_inv hs
  exact builtDist_sigma_symm nu hpd

theorem studentsTConditional_fin {observed : List ℕ} {values mu : List ℝ}
    {sigma : Mtx} (x : ℝ) (hu : ¬ (condUnob observed mu).length = 0)
    (h22 : (toMat observed.length (condSigma22 observed sigma)).PosDef) :
    studentsTConditional observed values (.fin x) mu sigma =
      .ok (.fin (x + observed.length), condNewMu observed values mu sigma,
        fun i j => (x + condBeta observed values mu sigma) /
          (x + observed.length) * condSigma11u observed mu sigma i j) := by
  unfold studentsTConditional
  rw [if_neg hu, if_pos h22]
  rfl

/-! ### The conditional parameters as the spec states them (§4.4).
These definitions follow the spec's formulas — not the code — and serve
only as the comparison side of the refinement claim about
`studentsTConditional`. -/

/-- Spec §4.4: the ascending complement of the observed index set. -/
def specUnob (s : StudentsT) (observed : List ℕ) : List ℕ :=
  findUnob observed s.dim

/-- Spec §4.4: the `Σ₂₂` block (observed × observed). -/
def specSigma22 (s : StudentsT) (observed : List ℕ) :
    Matrix (Fin observed.length) (Fin observed.length) ℝ :=
  toMat observed.length (subMtx s.sigma observed observed)

/-- Spec §4.4: `d = observedValues − μ₂`. -/
def specDiff (s : StudentsT) (observed : List ℕ) (values : List ℝ) :
    Fin observed.length → ℝ :=
  fun i => values.getD i 0 - s.mu (observed.getD i 0)

/-- Spec §4.4: the solve `Σ₂₂ · t = d`, i.e. `t = Σ₂₂⁻¹ · d`. -/
def specT (s : StudentsT) (observed : List ℕ) (values : List ℝ) :
    Fin observed.length → ℝ :=
  (specSigma22 s observed)⁻¹ *ᵥ specDiff s observed values

/-- Spec §4.4: the `Σ₂₁` block (observed × unobserved). -/
def specSigma21 (s : StudentsT) (observed : List ℕ) :
    Matrix (Fin observed.length) (Fin (specUnob s observed).length) ℝ :=
  Matrix.of fun i j => s.sigma (observed.getD i 0) ((specUnob s observed).getD j 0)

/-- Spec §4.4: the conditional mean `μ₁' = μ₁ + Σ₂₁ᵀ · t`. -/
def specCondMean (s : StudentsT) (observed : List ℕ) (values : List ℝ) :
    Fin (specUnob s observed).length → ℝ :=
  fun i => s.mu ((specUnob s observed).getD i 0) +
    ((specSigma21 s observed)ᵀ *ᵥ specT s observed values) i

/-- Spec §4.4: `β = dᵀ · t`. -/
def specBeta (s : StudentsT) (observed : List ℕ) (values : List ℝ) : ℝ :=
  specDiff s observed values ⬝ᵥ specT s observed values

/-- Spec §4.4: the Schur complement `Σ₁₁ − Σ₂₁ᵀ · Σ₂₂⁻¹ · Σ₂₁`. -/
def specSchur (s : StudentsT) (observed : List ℕ) :
    Matrix (Fin (specUnob s observed).length)
      (Fin (specUnob s observed).length) ℝ :=
  toMat (specUnob s observed).length
      (subMtx s.sigma (specUnob s observed) (specUnob s observed)) -
    (specSigma21 s observed)ᵀ * (specSigma22 s observed)⁻¹ * specSigma21 s observed

/-- Spec §4.4, finite-ν branch: the conditional scale
`(Σ₁₁ − Σ₂₁ᵀ·Σ₂₂⁻¹·Σ₂₁) · (ν + β)/(ν + k)`. -/
def specCondSigma (s : StudentsT) (observed : List ℕ) (values : List ℝ)
    (x : ℝ) :
    Matrix (Fin (specUnob s observed).length)
      (Fin (specUnob s observed).length) ℝ :=
  ((x + specBeta s observed values) / (x + observed.length)) •
    specSchur s observed

theorem posSemidef_quadForm_nonneg {n : ℕ} {M : Matrix (Fin n) (Fin n) ℝ}
    (h : M.PosSemidef) (v : Fin n → ℝ) : 0 ≤ v ⬝ᵥ (M *ᵥ v) := by
  have := h.2 v
  simpa using this

/-! ### Claim theorems -/

/-- C2 (amended): the constructor does not validate the degrees-of-freedom
parameter.  `NewStudentsT` panics, fails, or succeeds independently of `nu`
(only the `mu`/`sigma` checks decide the outcome shape), and on success it
stores the given `nu` unchanged — including values `nu ≤ 2`; the `nu > 2`
invariant is documentation only, never enforced at construction. -/
theorem c2_nu_not_validated (mu : List ℝ) (d : ℕ) (sigma : Mtx) (nu nu' : FReal) :
    (NewStudentsT mu d sigma nu).tag = (NewStudentsT mu d sigma nu').tag ∧
    ∀ s, NewStudentsT mu d sigma nu = .ok s → s.nu = nu := by
  constructor
  · by_cases h0 : mu.length = 0
    · simp [NewStudentsT, h0]
    · by_cases hd : d = mu.length
      · by_cases hpd : (toMat d sigma).PosDef <;>
          simp [NewStudentsT, h0, hd, hpd, Outcome.tag]
      · simp [NewStudentsT, h0, hd]
  · intro s hs
    exact built_nu hs

/-- C2 counterexample: building with `nu = 1` succeeds and yields a live
distribution whose `nu` is `1 ≤ 2` — the claimed constructor-enforced
invariant `nu > 2 ∨ nu = +Inf` is false. -/
theorem c2_counterexample :
    ¬ ∀ (mu : List ℝ) (d : ℕ) (sigma : Mtx) (nu : FReal) (s : StudentsT),
        NewStudentsT mu d sigma nu = .ok s →
        s.nu = .posInf ∨ ∃ x : ℝ, s.nu = .fin x ∧ 2 < x := by
  intro h
  have h1 := h [0] 1 idf (.fin 1) (builtDist [0] 1 idf (.fin 1))
    (newStudentsT_ok (by simp) (by simp) (posDef_toMat_idf 1))
  rw [builtDist_nu] at h1
  rcases h1 with h1 | ⟨x, hx, hx2⟩
  · exact FReal.fin_ne_posInf 1 h1
  · have : (1 : ℝ) = x := by injection hx
    linarith

/-- C2 witness: the outcome shape at `nu = 1` matches the one at `nu = 100`,
and the stored `nu` of the successfully built distribution is `1`. -/
theorem c2_nu_not_validated_witness :
    (NewStudentsT [0] 1 idf (.fin 1)).tag = (NewStudentsT [0] 1 idf (.fin 100)).tag ∧
    (builtDist [0] 1 idf (.fin 1)).nu = .fin 1 :=
  ⟨(c2_nu_not_validated [0] 1 idf (.fin 1) (.fin 100)).1,
   (c2_nu_not_validated [0] 1 idf (.fin 1) (.fin 100)).2 _
     (newStudentsT_ok (by simp) (by simp) (posDef_toMat_idf 1))⟩

/-- C4: `NewStudentsT` panics exactly when `len(mu) = 0` or
`sigma.SymmetricDim() ≠ len(mu)`; a non-positive-definite `sigma` — in
particular one with a negative diagonal entry — yields the recoverable
failure (`nil, false`), never a distribution; on success the cached factor
`L` satisfies `L·Lᵀ = Σ` and `logSqrtDet` equals half the factor's
log-determinant `log det Σ`. -/
theorem c4_builder_contract (mu : List ℝ) (d : ℕ) (sigma : Mtx) (nu : FReal) :
    ((NewStudentsT mu d sigma nu).isPanic ↔ mu.length = 0 ∨ d ≠ mu.length) ∧
    (¬ (toMat d sigma).PosDef → mu.length ≠ 0 → d = mu.length →
      NewStudentsT mu d sigma nu = .fail) ∧
    ((∃ i : Fin d, sigma i i < 0) → mu.length ≠ 0 → d = mu.length →
      NewStudentsT mu d sigma nu = .fail) ∧
    (∀ s, NewStudentsT mu d sigma nu = .ok s →
      toMat s.dim s.lower * (toMat s.dim s.lower)ᵀ = toMat s.dim s.sigma ∧
      s.logSqrtDet = 0.5 * Real.log (toMat s.dim s.sigma).det) := by
  have hfail : ¬ (toMat d sigma).PosDef → mu.length ≠ 0 → d = mu.length →
      NewStudentsT mu d sigma nu = .fail := by
    intro hpd h0 hd
    rw [NewStudentsT, if_neg h0, if_neg (by simp [hd]), if_neg hpd]
  refine ⟨?_, hfail, ?_, ?_⟩
  · by_cases h0 : mu.length = 0
    · simp [NewStudentsT, h0]
    · by_cases hd : d = mu.length
      · by_cases hpd : (toMat d sigma).PosDef <;>
          simp [NewStudentsT, h0, hd, hpd, Outcome.isPanic]
      · simp [NewStudentsT, h0, hd, Outcome.isPanic]
  · rintro ⟨i, hneg⟩ h0 hd
    refine hfail (fun hpd => absurd (posDef_diag_pos hpd i) ?_) h0 hd
    rw [toMat_apply]
    exact not_lt.mpr hneg.le
  · intro s hs
    obtain ⟨h0, hd, hpd, rfl⟩ := newStudentsT_ok_inv hs
    refine ⟨?_, ?_⟩
    · rw [builtDist_dim, builtDist_lower, toMat_builtDist_sigma, toMat_cholL]
      exact cholMat_mul_transpose hpd
    · rw [builtDist_dim, builtDist_logSqrtDet, toMat_builtDist_sigma]

/-- C4 witness: a 1×1 scale matrix with the negative diagonal entry `-1`
yields the recoverable failure outcome. -/
theorem c4_builder_contract_witness :
    NewStudentsT [0] 1 (fun _ _ => -1) (.fin 3) = .fail :=
  (c4_builder_contract [0] 1 (fun _ _ => -1) (.fin 3)).2.2.1
    ⟨0, by norm_num⟩ (by simp) (by simp)

/-- C10: a distribution built with the Gaussian-limit marker `nu = +Inf`
has `lgamma((nu+n)/2) = lgamma(nu/2) = +Inf`, so `LogProb` computes
`(+Inf) - (+Inf) = NaN` and returns `NaN` at every point, and `Prob`
(density) is `NaN` as well: density evaluation is unusable at `nu = +Inf`
even though construction accepts the marker. -/
theorem c10_logprob_nan {mu : List ℝ} {d : ℕ} {sigma : Mtx} {s : StudentsT}
    (hs : NewStudentsT mu d sigma .posInf = .ok s) (y : Vec) :
    LogProb s y = .nan ∧ Prob s y = .nan := by
  have hnu : s.nu = .posInf := built_nu hs
  have hdiv : FReal.posInf / FReal.fin 2 = FReal.posInf :=
    FReal.posInf_div_fin_nonneg (by norm_num)
  have hlog : LogProb s y = .nan := by
    simp [LogProb, hnu, hdiv]
  exact ⟨hlog, by rw [Prob, hlog]; rfl⟩

/-- C10 witness: the Gaussian-limit distribution on ℝ with `mu = 3`,
`sigma = 1` has `NaN` log-density and density at the origin. -/
theorem c10_logprob_nan_witness :
    LogProb (builtDist [3] 1 idf .posInf) (fun _ => 0) = .nan ∧
    Prob (builtDist [3] 1 idf .posInf) (fun _ => 0) = .nan :=
  c10_logprob_nan (newStudentsT_ok (by simp) (by simp) (posDef_toMat_idf 1)) _

/-- C1 (amended): `Rand` does not special-case the Gaussian-limit marker.
With `nu = +Inf` it still performs the chi-squared draw `u` and returns
`mu + sqrt(nu/u)·y`, where the scale factor `sqrt(+Inf/u)` is `+Inf`
rather than the claimed implicit `1`; in particular every coordinate with
`y_i = 0` comes out `NaN`, not `mu_i + y_i`. -/
theorem c1_rand_no_gaussian_branch {mu : List ℝ} {d : ℕ} {sigma : Mtx}
    {s : StudentsT} (hs : NewStudentsT mu d sigma .posInf = .ok s)
    (z : Vec) {u : ℝ} (hu : 0 < u) (i : ℕ) :
    Rand s z u i = .fin (s.mu i) + .posInf * .fin (lowerMulVec s z i) ∧
    (lowerMulVec s z i = 0 → Rand s z u i = .nan) := by
  have hnu : s.nu = .posInf := built_nu hs
  have hdivu : FReal.posInf / FReal.fin u = FReal.posInf :=
    FReal.posInf_div_fin_nonneg hu.le
  constructor
  · simp [Rand, hnu, hdivu]
  · intro h0
    simp [Rand, hnu, hdivu, h0, FReal.posInf_mul_fin_zero]

/-- C1 counterexample: for the Gaussian-limit distribution with `mu = 3`,
`sigma = 1`, the draw `z = 0`, `u = 4` gives `y = 0`; the code returns
`NaN` at coordinate 0, whereas `mu + y` there is `3` — `Rand` does not
return `mu + y`. -/
theorem c1_counterexample :
    Rand (builtDist [3] 1 idf .posInf) (fun _ => 0) 4 0 = .nan ∧
    FReal.fin ((builtDist [3] 1 idf .posInf).mu 0 +
      lowerMulVec (builtDist [3] 1 idf .posInf) (fun _ => 0) 0) = .fin 3 ∧
    FReal.nan ≠ FReal.fin 3 := by
  have h0 : lowerMulVec (builtDist [3] 1 idf .posInf) (fun _ => 0) 0 = 0 := by
    simp [lowerMulVec]
  refine ⟨?_, ?_, fun h => by injection h⟩
  · simp only [Rand, builtDist_nu, h0,
      FReal.posInf_div_fin_nonneg (by norm_num : (0:ℝ) ≤ 4),
      FReal.sqrt_posInf, FReal.posInf_mul_fin_zero, FReal.add_nan]
  · rw [h0, builtDist_mu_lt idf .posInf (by norm_num)]
    norm_num

/-- C8: for a live distribution with finite `nu > 2`, `CovarianceMatrix`
succeeds on an absent or right-sized destination and the result is the
symmetric matrix with entries `nu/(nu-2) * Sigma[i,j]` (finite); a supplied
destination of mismatched dimension is a fatal panic. -/
theorem c8_covariance {mu : List ℝ} {d : ℕ} {sigma : Mtx} {nu0 : FReal}
    {s : StudentsT} {x : ℝ} (hs : NewStudentsT mu d sigma nu0 = .ok s)
    (hnu : s.nu = .fin x) (hx : 2 < x) :
    CovarianceMatrix s (some s.dim) = .ok (covEntries s) ∧
    CovarianceMatrix s none = .ok (covEntries s) ∧
    (∀ m, m ≠ s.dim → CovarianceMatrix s (some m) =
      .panic "studentst: input matrix size mismatch") ∧
    (∀ i j, covEntries s i j = .fin (x / (x - 2) * s.sigma i j)) ∧
    (∀ i j, covEntries s i j = covEntries s j i) := by
  obtain ⟨h0, hd, hpd, hrec⟩ := newStudentsT_ok_inv hs
  have hx2 : x - 2 ≠ 0 := sub_ne_zero.mpr (ne_of_gt hx)
  have hent : ∀ i j, covEntries s i j = .fin (x / (x - 2) * s.sigma i j) := by
    intro i j
    rw [covEntries, hnu, FReal.fin_sub_fin, FReal.fin_div_fin hx2,
      FReal.fin_mul_fin]
  have hsym : ∀ i j, s.sigma i j = s.sigma j i := by
    rw [hrec]
    exact builtDist_sigma_symm nu0 hpd
  refine ⟨by simp [CovarianceMatrix], by simp [CovarianceMatrix], ?_, hent, ?_⟩
  · intro m hm
    simp [CovarianceMatrix, hm]
  · intro i j
    rw [hent i j, hent j i, hsym i j]

/-- C8 witness: `Sigma = I₂`, `nu = 4`: a right-sized destination succeeds
and the covariance matrix is exactly `2·I₂`. -/
theorem c8_covariance_witness :
    CovarianceMatrix (builtDist [0, 0] 2 idf (.fin 4)) (some 2) =
      .ok (covEntries (builtDist [0, 0] 2 idf (.fin 4))) ∧
    covEntries (builtDist [0, 0] 2 idf (.fin 4)) 0 0 = .fin 2 ∧
    covEntries (builtDist [0, 0] 2 idf (.fin 4)) 1 1 = .fin 2 ∧
    covEntries (builtDist [0, 0] 2 idf (.fin 4)) 0 1 = .fin 0 ∧
    covEntries (builtDist [0, 0] 2 idf (.fin 4)) 1 0 = .fin 0 := by
  have h := c8_covariance
    (newStudentsT_ok (by simp) (by simp) (posDef_toMat_idf 2))
    (builtDist_nu [0, 0] 2 idf (.fin 4)) (by norm_num)
  have he := h.2.2.2.1
  refine ⟨h.1, ?_, ?_, ?_, ?_⟩ <;>
    rw [he] <;>
    rw [builtDist_sigma_lt idf (.fin 4) (by norm_num) (by norm_num)] <;>
    simp [idf] <;> norm_num

/-- C6: marginalizing a live distribution onto all coordinates
`[0, ..., n-1]` in order returns a distribution equal to the original in
every field: location, scale, degrees of freedom, cached factor and
log-determinant. -/
theorem c6_marginal_all {mu : List ℝ} {d : ℕ} {sigma : Mtx} {nu : FReal}
    {s : StudentsT} (hs : NewStudentsT mu d sigma nu = .ok s) :
    MarginalStudentsT s (List.range s.dim) = .ok s := by
  obtain ⟨h0, hd, hpd, rfl⟩ := newStudentsT_ok_inv hs
  have hdpos : d ≠ 0 := by rw [hd]; exact h0
  have htoMat : toMat d (subMtx (builtDist mu d sigma nu).sigma
      (List.range d) (List.range d)) = toMat d sigma := by
    ext i j
    rw [toMat_apply, toMat_apply]
    show (builtDist mu d sigma nu).sigma ((List.range d).getD i 0)
        ((List.range d).getD j 0) = sigma i j
    rw [getD_range i.isLt, getD_range j.isLt]
    exact builtDist_sigma_lt sigma nu i.isLt j.isLt
  show NewStudentsT ((List.range d).map fun v => (builtDist mu d sigma nu).mu v)
      (List.range d).length
      (subMtx (builtDist mu d sigma nu).sigma (List.range d) (List.range d))
      (builtDist mu d sigma nu).nu = .ok (builtDist mu d sigma nu)
  rw [List.length_range, builtDist_nu]
  rw [newStudentsT_ok (by simpa using hdpos) (by simp) (htoMat ▸ hpd)]
  rw [Outcome.ok_injEq]
  apply builtDist_eq_of
  · intro i hi
    rw [getD_map (by simpa using hi), getD_range hi]
    simp [builtDist, hi]
  · intro i j hi hj
    show (builtDist mu d sigma nu).sigma ((List.range d).getD i 0)
        ((List.range d).getD j 0) = sigma i j
    rw [getD_range hi, getD_range hj]
    exact builtDist_sigma_lt sigma nu hi hj

/-- C6 witness: the identity-scale two-dimensional distribution marginalized
onto `[0, 1]` is itself. -/
theorem c6_marginal_all_witness :
    MarginalStudentsT (builtDist [0, 0] 2 idf (.fin 3))
      (List.range (builtDist [0, 0] 2 idf (.fin 3)).dim) =
      .ok (builtDist [0, 0] 2 idf (.fin 3)) :=
  c6_marginal_all (newStudentsT_ok (by simp) (by simp) (posDef_toMat_idf 2))

/-- C3: a duplicated observed index does not halt with a fatal error.  On
the 2-dimensional identity-scale distribution, conditioning on
`observed = [0, 0]` extracts the singular `sigma22 = [[1,1],[1,1]]`, whose
factorization fails, and `ConditionStudentsT` returns the *recoverable*
failure (`nil, false`) — contradicting `findUnob`'s own documentation
("findUnob panics if any value repeated in observed") and the claim.  An
out-of-range index, by contrast, does panic. -/
theorem c3_duplicate_not_fatal :
    ConditionStudentsT (builtDist [0, 0] 2 idf (.fin 5)) [0, 0] [1, 1] = .fail ∧
    ConditionStudentsT (builtDist [0, 0] 2 idf (.fin 5)) [2] [1] =
      .panic "studentst: observed value out of bounds" := by
  have hlen : (muList (builtDist [0, 0] 2 idf (.fin 5))).length = 2 := by
    simp [muList]
  have hcu : condUnob [0, 0] (muList (builtDist [0, 0] 2 idf (.fin 5))) = [1] := by
    rw [condUnob, hlen]
    decide
  have hent : ∀ i j : Fin 2,
      toMat 2 (condSigma22 [0, 0] (builtDist [0, 0] 2 idf (.fin 5)).sigma) i j = 1 := by
    intro i j
    rw [toMat_apply]
    show (builtDist [0, 0] 2 idf (.fin 5)).sigma
        (([0, 0] : List ℕ).getD i 0) (([0, 0] : List ℕ).getD j 0) = 1
    have hi : (([0, 0] : List ℕ).getD i 0) = 0 := by fin_cases i <;> rfl
    have hj : (([0, 0] : List ℕ).getD j 0) = 0 := by fin_cases j <;> rfl
    rw [hi, hj, builtDist_sigma_lt idf (.fin 5) (by norm_num) (by norm_num)]
    simp [idf]
  have hdet0 :
      (toMat 2 (condSigma22 [0, 0] (builtDist [0, 0] 2 idf (.fin 5)).sigma)).det = 0 := by
    rw [Matrix.det_fin_two, hent 0 0, hent 1 1, hent 0 1, hent 1 0]
    ring
  have hnp : ¬ (toMat 2
      (condSigma22 [0, 0] (builtDist [0, 0] 2 idf (.fin 5)).sigma)).PosDef := by
    intro hpd
    have := hpd.det_pos
    rw [hdet0] at this
    exact lt_irrefl 0 this
  have hcond : studentsTConditional [0, 0] [1, 1] (.fin 5)
      (muList (builtDist [0, 0] 2 idf (.fin 5)))
      (builtDist [0, 0] 2 idf (.fin 5)).sigma = .fail := by
    unfold studentsTConditional
    rw [if_neg (by rw [hcu]; simp),
      show ([0, 0] : List ℕ).length = 2 from rfl, if_neg hnp]
  constructor
  · unfold ConditionStudentsT
    rw [if_neg (by simp), if_neg (by simp), if_neg (by simp), builtDist_nu, hcond]
  · unfold ConditionStudentsT
    rw [if_neg (by simp), if_neg (by simp), if_pos (by simp)]

/-- C7: for every live distribution with finite `nu > 0` and every point
`y` of the distribution's dimension, `LogProb` returns the finite value
`lgamma((nu+n)/2) - lgamma(nu/2) - (n/2)·log(nu·π) - logSqrtDet
 - ((nu+n)/2)·log(1 + m²/nu)` where `m² = (y-mu)ᵀ·Sigma⁻¹·(y-mu)` is the
squared Mahalanobis distance computed through the cached factor. -/
theorem c7_logprob_formula {mu : List ℝ} {d : ℕ} {sigma : Mtx} {nu0 : FReal}
    {s : StudentsT} {x : ℝ} (hs : NewStudentsT mu d sigma nu0 = .ok s)
    (hnu : s.nu = .fin x) (hx : 0 < x) (y : Vec) :
    LogProb s y =
      .fin (FReal.lgammaR ((x + s.dim) / 2) - FReal.lgammaR (x / 2)
        - (s.dim : ℝ) / 2 * Real.log (x * Real.pi) - s.logSqrtDet
        - (x + s.dim) / 2 * Real.log (1 +
            ((fun i : Fin s.dim => y i - s.mu i) ⬝ᵥ
              ((toMat s.dim s.sigma)⁻¹ *ᵥ
                fun i : Fin s.dim => y i - s.mu i)) / x)) := by
  have hPD : (toMat s.dim s.sigma).PosDef := built_sigma_posDef hs
  set dv : Fin s.dim → ℝ := fun i => y i - s.mu i with hdv
  set m2 : ℝ := dv ⬝ᵥ ((toMat s.dim s.sigma)⁻¹ *ᵥ dv) with hm2
  have hq : (∑ i ∈ Finset.range s.dim, (y i - s.mu i) *
      solveVec s.dim s.sigma (fun j => y j - s.mu j) i) = m2 := by
    rw [hm2, Matrix.dotProduct, ← Fin.sum_univ_eq_sum_range]
    apply Finset.sum_congr rfl
    intro i _
    congr 1
    rw [solveVec, dif_pos i.isLt]
  have hm2nn : 0 ≤ m2 :=
    posSemidef_quadForm_nonneg hPD.inv.posSemidef dv
  have hmah : mahalanobis s.dim y s.mu s.sigma *
      mahalanobis s.dim y s.mu s.sigma = m2 := by
    rw [mahalanobis, hq]
    exact Real.mul_self_sqrt hm2nn
  have h2ne : (2 : ℝ) ≠ 0 := two_ne_zero
  have hxne : x ≠ 0 := ne_of_gt hx
  have hn0 : (0 : ℝ) ≤ (s.dim : ℝ) := Nat.cast_nonneg _
  have hp1 : 0 < (x + (s.dim : ℝ)) / 2 := by positivity
  have hp2 : 0 < x / 2 := by positivity
  have hp3 : 0 < x * Real.pi := by
    have := Real.pi_pos
    positivity
  have hp4 : 0 < 1 + m2 / x := by
    have : 0 ≤ m2 / x := div_nonneg hm2nn hx.le
    linarith
  simp only [LogProb, hnu, hmah, FReal.fin_add_fin, FReal.fin_div_fin h2ne,
    FReal.lgamma_fin_pos hp1, FReal.lgamma_fin_pos hp2, FReal.fin_mul_fin,
    FReal.log_fin_pos hp3, FReal.fin_sub_fin, FReal.fin_div_fin hxne,
    FReal.log_fin_pos hp4]

/-- C5: conditioning a live finite-ν distribution on valid evidence whose
`Σ₂₂` factorization and final build succeed returns a distribution with
mean `μ₁ + Σ₂₁ᵀ·Σ₂₂⁻¹·(values − μ₂)`, scale
`(Σ₁₁ − Σ₂₁ᵀ·Σ₂₂⁻¹·Σ₂₁) · (ν + β)/(ν + k)` where
`β = dᵀ·Σ₂₂⁻¹·d`, and degrees of freedom exactly `ν + k`
(`k = len(observed)`). -/
theorem c5_conditional {mu0 : List ℝ} {d : ℕ} {sigma0 : Mtx} {nu0 : FReal}
    {s : StudentsT} {x : ℝ}
    (hs : NewStudentsT mu0 d sigma0 nu0 = .ok s) (hnu : s.nu = .fin x)
    (observed : List ℕ) (values : List ℝ)
    (hne : ¬ observed.length = 0) (hlen : observed.length = values.length)
    (hrange : ∀ v ∈ observed, v < s.dim)
    (hkeep : ¬ (specUnob s observed).length = 0)
    (h22 : (specSigma22 s observed).PosDef)
    (hbuild : (specCondSigma s observed values x).PosDef) :
    ∃ t : StudentsT, ConditionStudentsT s observed values = .ok t ∧
      t.dim = (specUnob s observed).length ∧
      t.nu = .fin (x + observed.length) ∧
      (∀ i : Fin (specUnob s observed).length,
        t.mu i = specCondMean s observed values i) ∧
      (∀ i j : Fin (specUnob s observed).length,
        t.sigma i j = specCondSigma s observed values x i j) := by
  have hml : (muList s).length = s.dim := by simp [muList]
  have hcu : condUnob observed (muList s) = specUnob s observed := by
    rw [condUnob, hml]
    rfl
  have hgetmu : ∀ a, a < s.dim → (muList s).getD a 0 = s.mu a := by
    intro a ha
    rw [muList, getD_map (by rw [List.length_range]; exact ha), getD_range ha]
  have hobsd : ∀ i : Fin observed.length, observed.getD (i : ℕ) 0 < s.dim :=
    fun i => hrange _ (getD_mem i.isLt)
  have hunel : ∀ a, a < (specUnob s observed).length →
      (specUnob s observed).getD a 0 < s.dim := by
    intro a ha
    exact (mem_findUnob.mp (getD_mem ha)).1
  have hsym := built_sigma_symm hs
  have h22' : (toMat observed.length (condSigma22 observed s.sigma)).PosDef := h22
  -- componentwise bridges between the code locals and the spec formulas
  have hdiff : ∀ j : Fin observed.length,
      condMu2 observed values (muList s) (j : ℕ) = specDiff s observed values j := by
    intro j
    simp only [condMu2, specDiff]
    rw [hgetmu _ (hobsd j)]
  have hdiff' : (fun j : Fin observed.length =>
      condMu2 observed values (muList s) (j : ℕ)) = specDiff s observed values :=
    funext hdiff
  have htmp : ∀ j : Fin observed.length,
      condTmp observed values (muList s) s.sigma (j : ℕ) =
        specT s observed values j := by
    intro j
    simp only [condTmp, solveVec]
    rw [dif_pos j.isLt, hdiff']
    rfl
  have hs21 : ∀ (a : Fin observed.length) (b : Fin (specUnob s observed).length),
      condSigma21 observed (muList s) s.sigma (a : ℕ) (b : ℕ) =
        specSigma21 s observed a b := by
    intro a b
    simp only [condSigma21, subMtx, hcu, specSigma21, Matrix.of_apply]
  have htmp2 : ∀ i : Fin (specUnob s observed).length,
      condTmp2 observed values (muList s) s.sigma (i : ℕ) =
        ((specSigma21 s observed)ᵀ *ᵥ specT s observed values) i := by
    intro i
    simp only [condTmp2, Matrix.mulVec, Matrix.dotProduct]
    rw [← Fin.sum_univ_eq_sum_range]
    apply Finset.sum_congr rfl
    intro j _
    rw [Matrix.transpose_apply, hs21 j i, htmp j]
  have hnewmu : ∀ i : Fin (specUnob s observed).length,
      (condNewMu observed values (muList s) s.sigma).getD (i : ℕ) 0 =
        specCondMean s observed values i := by
    intro i
    simp only [condNewMu, hcu]
    rw [getD_map (by rw [List.length_range]; exact i.isLt), getD_range i.isLt]
    simp only [condMu1, hcu]
    rw [hgetmu _ (hunel _ i.isLt), htmp2 i]
    rfl
  have htmp3 : ∀ (l : Fin observed.length) (j : Fin (specUnob s observed).length),
      condTmp3 observed (muList s) s.sigma (l : ℕ) (j : ℕ) =
        ((specSigma22 s observed)⁻¹ * specSigma21 s observed) l j := by
    intro l j
    simp only [condTmp3, solveMat]
    rw [dif_pos l.isLt]
    have hcol : (fun l' : Fin observed.length =>
        condSigma21 observed (muList s) s.sigma (l' : ℕ) (j : ℕ)) =
        fun l' => specSigma21 s observed l' j := funext fun l' => hs21 l' j
    rw [hcol]
    simp only [Matrix.mul_apply, Matrix.mulVec, Matrix.dotProduct]
    rfl
  have htmp4 : ∀ (i j : Fin (specUnob s observed).length),
      condTmp4 observed (muList s) s.sigma (i : ℕ) (j : ℕ) =
        ((specSigma21 s observed)ᵀ * (specSigma22 s observed)⁻¹ *
          specSigma21 s observed) i j := by
    intro i j
    simp only [condTmp4]
    rw [Matrix.mul_assoc, Matrix.mul_apply, ← Fin.sum_univ_eq_sum_range]
    apply Finset.sum_congr rfl
    intro l _
    rw [Matrix.transpose_apply, hs21 l i, htmp3 l j]
  have hNsym : ((specSigma21 s observed)ᵀ * (specSigma22 s observed)⁻¹ *
      specSigma21 s observed)ᵀ =
      (specSigma21 s observed)ᵀ * (specSigma22 s observed)⁻¹ *
        specSigma21 s observed := by
    have hherm : (specSigma22 s observed)ᵀ = specSigma22 s observed := by
      ext a b
      rw [Matrix.transpose_apply]
      show subMtx s.sigma observed observed (b : ℕ) (a : ℕ) =
        subMtx s.sigma observed observed (a : ℕ) (b : ℕ)
      simp only [subMtx]
      exact hsym _ _
    have hinv : ((specSigma22 s observed)⁻¹)ᵀ = (specSigma22 s observed)⁻¹ := by
      rw [Matrix.transpose_nonsing_inv, hherm]
    rw [Matrix.transpose_mul, Matrix.transpose_mul, Matrix.transpose_transpose,
      hinv, ← Matrix.mul_assoc]
  have hschur_symm : ∀ (i j : Fin (specUnob s observed).length),
      specSchur s observed i j = specSchur s observed j i := by
    intro i j
    simp only [specSchur, Matrix.sub_apply, toMat_apply]
    have h11 : subMtx s.sigma (specUnob s observed) (specUnob s observed)
        (i : ℕ) (j : ℕ) =
        subMtx s.sigma (specUnob s observed) (specUnob s observed)
          (j : ℕ) (i : ℕ) := by
      simp only [subMtx]
      exact hsym _ _
    have hN : ((specSigma21 s observed)ᵀ * (specSigma22 s observed)⁻¹ *
        specSigma21 s observed) i j =
        ((specSigma21 s observed)ᵀ * (specSigma22 s observed)⁻¹ *
          specSigma21 s observed) j i := by
      conv_lhs => rw [← hNsym]
      rw [Matrix.transpose_apply]
    rw [h11, hN]
  have hone : ∀ (a b : Fin (specUnob s observed).length),
      condSigma11 observed (muList s) s.sigma (a : ℕ) (b : ℕ) -
        condTmp4 observed (muList s) s.sigma (a : ℕ) (b : ℕ) =
        specSchur s observed a b := by
    intro a b
    rw [htmp4 a b]
    simp only [condSigma11, hcu, specSchur, Matrix.sub_apply, toMat_apply]
  have hs11u : ∀ (i j : Fin (specUnob s observed).length),
      condSigma11u observed (muList s) s.sigma (i : ℕ) (j : ℕ) =
        specSchur s observed i j := by
    intro i j
    simp only [condSigma11u]
    by_cases hij : (i : ℕ) ≤ (j : ℕ)
    · rw [if_pos hij]
      exact hone i j
    · rw [if_neg hij, hone j i, hschur_symm j i]
  have hbeta : condBeta observed values (muList s) s.sigma =
      specBeta s observed values := by
    simp only [condBeta, specBeta, Matrix.dotProduct]
    rw [← Fin.sum_univ_eq_sum_range]
    apply Finset.sum_congr rfl
    intro j _
    rw [hdiff j, htmp j]
  have hscaled : ∀ (i j : Fin (specUnob s observed).length),
      (x + condBeta observed values (muList s) s.sigma) /
          (x + (observed.length : ℝ)) *
        condSigma11u observed (muList s) s.sigma (i : ℕ) (j : ℕ) =
      specCondSigma s observed values x i j := by
    intro i j
    rw [hbeta, hs11u i j]
    simp only [specCondSigma, Matrix.smul_apply, smul_eq_mul]
  have hnmlen : (condNewMu observed values (muList s) s.sigma).length =
      (specUnob s observed).length := by
    simp [condNewMu, hcu]
  have hmx : toMat (specUnob s observed).length
      (fun i j => (x + condBeta observed values (muList s) s.sigma) /
        (x + (observed.length : ℝ)) *
          condSigma11u observed (muList s) s.sigma i j) =
      specCondSigma s observed values x := by
    ext i j
    rw [toMat_apply]
    exact hscaled i j
  have hno : ¬ ((observed.any fun v => decide (s.dim ≤ v)) = true) := by
    simp only [List.any_eq_true, decide_eq_true_eq]
    rintro ⟨v, hv, hge⟩
    exact absurd (hrange v hv) (not_lt.mpr hge)
  have heval : ConditionStudentsT s observed values =
      NewStudentsT (condNewMu observed values (muList s) s.sigma)
        (condNewMu observed values (muList s) s.sigma).length
        (fun i j => (x + condBeta observed values (muList s) s.sigma) /
          (x + (observed.length : ℝ)) *
            condSigma11u observed (muList s) s.sigma i j)
        (.fin (x + observed.length)) := by
    unfold ConditionStudentsT
    rw [if_neg hne, if_neg (by simp [hlen]), if_neg hno, hnu,
      studentsTConditional_fin x (by rw [hcu]; exact hkeep) h22']
  have hok : NewStudentsT (condNewMu observed values (muList s) s.sigma)
      (condNewMu observed values (muList s) s.sigma).length
      (fun i j => (x + condBeta observed values (muList s) s.sigma) /
        (x + (observed.length : ℝ)) *
          condSigma11u observed (muList s) s.sigma i j)
      (.fin (x + observed.length)) =
      .ok (builtDist (condNewMu observed values (muList s) s.sigma)
        (condNewMu observed values (muList s) s.sigma).length
        (fun i j => (x + condBeta observed values (muList s) s.sigma) /
          (x + (observed.length : ℝ)) *
            condSigma11u observed (muList s) s.sigma i j)
        (.fin (x + observed.length))) := by
    apply newStudentsT_ok
    · rw [hnmlen]
      exact hkeep
    · rfl
    · rw [hnmlen, hmx]
      exact hbuild
  refine ⟨builtDist (condNewMu observed values (muList s) s.sigma)
      (condNewMu observed values (muList s) s.sigma).length
      (fun i j => (x + condBeta observed values (muList s) s.sigma) /
        (x + (observed.length : ℝ)) *
          condSigma11u observed (muList s) s.sigma i j)
      (.fin (x + observed.length)),
    by rw [heval, hok], ?_, ?_, ?_, ?_⟩
  · rw [builtDist_dim, hnmlen]
  · rw [builtDist_nu]
  · intro i
    have hilt : (i : ℕ) < (condNewMu observed values (muList s) s.sigma).length := by
      rw [hnmlen]
      exact i.isLt
    rw [builtDist_mu_lt _ _ hilt]
    exact hnewmu i
  · intro i j
    have hilt : (i : ℕ) < (condNewMu observed values (muList s) s.sigma).length := by
      rw [hnmlen]
      exact i.isLt
    have hjlt : (j : ℕ) < (condNewMu observed values (muList s) s.sigma).length := by
      rw [hnmlen]
      exact j.isLt
    rw [builtDist_sigma_lt _ _ hilt hjlt]
    exact hscaled i j

/-- C5 witness: the spec's concrete scenario — `mu = [0,0]`, `Sigma = I₂`,
`nu = 5`, coordinate 0 observed as `1.0` — yields a 1-dimensional
distribution with `nu' = 6`, mean `0` and scale `1`
(scaled by `(5+1)/(5+1) = 1`). -/
theorem c5_conditional_witness :
    ∃ t : StudentsT,
      ConditionStudentsT (builtDist [0, 0] 2 idf (.fin 5)) [0] [1] = .ok t ∧
      t.dim = 1 ∧ t.nu = .fin 6 ∧ t.mu 0 = 0 ∧ t.sigma 0 0 = 1 := by
  have hsOK : NewStudentsT [0, 0] 2 idf (.fin 5) =
      .ok (builtDist [0, 0] 2 idf (.fin 5)) :=
    newStudentsT_ok (by simp) (by simp) (posDef_toMat_idf 2)
  have hun : specUnob (builtDist [0, 0] 2 idf (.fin 5)) [0] = [1] := by
    show findUnob [0] 2 = [1]
    decide
  have hmu1 : (builtDist [0, 0] 2 idf (.fin 5)).mu 1 = 0 := by
    rw [builtDist_mu_lt idf (.fin 5) (by norm_num)]
    simp
  have h220 : specSigma22 (builtDist [0, 0] 2 idf (.fin 5)) [0] = 1 := by
    ext i j
    fin_cases i
    fin_cases j
    show (builtDist [0, 0] 2 idf (.fin 5)).sigma 0 0 = _
    rw [builtDist_sigma_lt idf (.fin 5) (by norm_num) (by norm_num)]
    simp [idf, Matrix.one_apply]
  have hinv : (specSigma22 (builtDist [0, 0] 2 idf (.fin 5)) [0])⁻¹ = 1 := by
    rw [h220, inv_one]
  have hdiffW : specDiff (builtDist [0, 0] 2 idf (.fin 5)) [0] [1] =
      fun _ => 1 := by
    funext i
    fin_cases i
    show (1 : ℝ) - (builtDist [0, 0] 2 idf (.fin 5)).mu 0 = 1
    rw [builtDist_mu_lt idf (.fin 5) (by norm_num)]
    simp
  have htW : specT (builtDist [0, 0] 2 idf (.fin 5)) [0] [1] = fun _ => 1 := by
    rw [specT, hinv, Matrix.one_mulVec, hdiffW]
  have hbetaW : specBeta (builtDist [0, 0] 2 idf (.fin 5)) [0] [1] = 1 := by
    rw [specBeta, hdiffW, htW]
    simp [Matrix.dotProduct]
  have h21W : specSigma21 (builtDist [0, 0] 2 idf (.fin 5)) [0] =
      (0 : Matrix (Fin 1) (Fin 1) ℝ) := by
    ext i j
    fin_cases i
    fin_cases j
    show (builtDist [0, 0] 2 idf (.fin 5)).sigma 0 1 = _
    rw [builtDist_sigma_lt idf (.fin 5) (by norm_num) (by norm_num)]
    simp [idf]
  have hschurW : specSchur (builtDist [0, 0] 2 idf (.fin 5)) [0] =
      (1 : Matrix (Fin 1) (Fin 1) ℝ) := by
    rw [specSchur, h21W, Matrix.transpose_zero, Matrix.zero_mul,
      Matrix.zero_mul, sub_zero]
    ext i j
    fin_cases i
    fin_cases j
    show (builtDist [0, 0] 2 idf (.fin 5)).sigma 1 1 = _
    rw [builtDist_sigma_lt idf (.fin 5) (by norm_num) (by norm_num)]
    simp [idf, Matrix.one_apply]
  have hcsW : specCondSigma (builtDist [0, 0] 2 idf (.fin 5)) [0] [1] 5 =
      (1 : Matrix (Fin 1) (Fin 1) ℝ) := by
    rw [specCondSigma, hbetaW, hschurW]
    norm_num
  obtain ⟨t, hteval, htdim, htnu, htmu, htsig⟩ :=
    c5_conditional hsOK (builtDist_nu [0, 0] 2 idf (.fin 5)) [0] [1]
      (by simp) (by simp)
      (by
        intro v hv
        rw [List.mem_singleton] at hv
        subst hv
        exact two_pos)
      (by rw [hun]; simp)
      (by rw [h220]; exact Matrix.PosDef.one)
      (by rw [hcsW]; exact Matrix.PosDef.one)
  have hi0 : (0 : ℕ) <
      (specUnob (builtDist [0, 0] 2 idf (.fin 5)) [0]).length := by
    rw [hun]
    norm_num
  refine ⟨t, hteval, ?_, ?_, ?_, ?_⟩
  · rw [htdim, hun]
    rfl
  · rw [htnu]
    norm_num
  · have h : t.mu 0 = specCondMean (builtDist [0, 0] 2 idf (.fin 5)) [0] [1]
        ⟨0, hi0⟩ := htmu ⟨0, hi0⟩
    rw [h]
    show (builtDist [0, 0] 2 idf (.fin 5)).mu 1 +
      ((specSigma21 (builtDist [0, 0] 2 idf (.fin 5)) [0])ᵀ *ᵥ
        specT (builtDist [0, 0] 2 idf (.fin 5)) [0] [1]) ⟨0, hi0⟩ = 0
    rw [hmu1, h21W, Matrix.transpose_zero, Matrix.zero_mulVec]
    simp
  · have h : t.sigma 0 0 = specCondSigma (builtDist [0, 0] 2 idf (.fin 5))
        [0] [1] 5 ⟨0, hi0⟩ ⟨0, hi0⟩ := htsig ⟨0, hi0⟩ ⟨0, hi0⟩
    rw [h, hcsW]
    simp [Matrix.one_apply]

/-- C7 witness: `mu = [0,0]`, `Sigma = I₂`, `nu = 5` at the origin: the
log-density is exactly `lgamma(3.5) - lgamma(2.5) - log(5·π)`. -/
theorem c7_logprob_formula_witness :
    LogProb (builtDist [0, 0] 2 idf (.fin 5)) (fun _ => 0) =
      .fin (FReal.lgammaR 3.5 - FReal.lgammaR 2.5 - Real.log (5 * Real.pi)) := by
  rw [c7_logprob_formula
    (newStudentsT_ok (by simp) (by simp) (posDef_toMat_idf 2))
    (builtDist_nu [0, 0] 2 idf (.fin 5)) (by norm_num) (fun _ => 0)]
  have hdv : (fun i : Fin (builtDist [0, 0] 2 idf (.fin 5)).dim =>
      (fun _ : ℕ => (0 : ℝ)) i - (builtDist [0, 0] 2 idf (.fin 5)).mu i) = 0 := by
    funext i
    have : ((builtDist [0, 0] 2 idf (.fin 5)).mu i) = 0 := by
      by_cases hi : (i : ℕ) < 2
      · rw [builtDist_mu_lt idf (.fin 5) hi]
        interval_cases h : (i : ℕ) <;> simp
      · simp [builtDist, hi]
    simp [this]
  rw [hdv]
  have hld : (builtDist [0, 0] 2 idf (.fin 5)).logSqrtDet = 0 := by
    rw [builtDist_logSqrtDet, toMat_idf]
    simp
  rw [hld]
  simp only [Matrix.dotProduct_zero, Matrix.zero_dotProduct, Matrix.mulVec_zero]
  norm_num

/-- C1 witness: the amended statement at the Gaussian-limit distribution
with `mu = 3`, `sigma = 1`, `z = 1`, `u = 4`. -/
theorem c1_rand_no_gaussian_branch_witness :
    (0:ℝ) < 4 ∧
    Rand (builtDist [3] 1 idf .posInf) (fun _ => 1) 4 0 =
      .fin ((builtDist [3] 1 idf .posInf).mu 0) +
        .posInf * .fin (lowerMulVec (builtDist [3] 1 idf .posInf) (fun _ => 1) 0) :=
  ⟨by norm_num,
   (c1_rand_no_gaussian_branch
      (newStudentsT_ok (by simp) (by simp) (posDef_toMat_idf 1))
      (fun _ => 1) (by norm_num) 0).1⟩

end Distmv
